import Mathlib

/-!
# Verification of `git-cliff-core/src/template.rs`

Shallow embedding of the template module of git-cliff: the `Template`
wrapper around the Tera engine, its two registered filters
(`commit_groups` and `upper_first_filter`), and the error-translation
logic of `Template::new`, `Template::render` and
`Template::render_with_groups`.

Modelling conventions:
* Tera's dynamic `Value` (a JSON-like value) is the inductive `Value`.
* Rust `Result`/`TeraResult` becomes `Except`; a Rust *panic* (from
  `expect`/`unwrap`) is modelled explicitly as an error constructor
  distinct from the filter errors that Tera returns to the renderer,
  because a panic aborts the process instead of being returned.
* The Tera engine itself is out of scope (external collaborator): the
  parse step of `Template::new` and the evaluation step of `render` /
  `render_with_groups` are taken as parameters, and the error values the
  engine produces are modelled by `EngineError`, a message together with
  an optional `source` cause (mirroring `std::error::Error::source`).
* `itertools::into_group_map_by` builds a `HashMap<K, Vec<V>>` whose
  iteration order is unspecified; the model enumerates the buckets in
  first-occurrence order of their keys.  This is sound for every claim
  proved below because the pipeline immediately sorts the buckets by a
  key (`position` in the `groups` list) that is injective on the bucket
  keys, so the sorted result does not depend on the enumeration order.
* Rust's `char::to_uppercase` (the full Unicode uppercase mapping, which
  may expand one scalar to several) is external data; it is taken as a
  parameter `upc : Char → List Char` of the string filter.
-/

namespace GitCliff

/-- Tera's dynamic value type (`tera::Value`, i.e. `serde_json::Value`).
Numbers are modelled as integers; no claim involves float values. -/
inductive Value where
  | null : Value
  | bool : Bool → Value
  | num : Int → Value
  | str : String → Value
  | arr : List Value → Value
  | obj : List (String × Value) → Value
deriving Inhabited

/-- Modelled from the spec: the `Commit` record of `crate::commit`
(whose source is not part of this module) — "a single change record with
fields `id` (string), `message` (string), and an optional `group`
(string classification)". -/
structure Commit where
  id : String
  message : String
  group : Option String
deriving DecidableEq, Inhabited

/-- Modelled from the spec: the `Release` aggregate of `crate::release`
— optional `version`, optional `commit_id`, integer `timestamp`, an
ordered sequence of `Commit`, and an optional `previous` release. -/
inductive Release where
  | mk : Option String → Option String → Int → List Commit →
      Option Release → Release

def Release.version : Release → Option String
  | .mk v _ _ _ _ => v

def Release.commit_id : Release → Option String
  | .mk _ c _ _ _ => c

def Release.timestamp : Release → Int
  | .mk _ _ t _ _ => t

def Release.commits : Release → List Commit
  | .mk _ _ _ cs _ => cs

def Release.previous : Release → Option Release
  | .mk _ _ _ _ p => p

/-- An engine (`tera`) error: its own display message plus an optional
lower-level cause, mirroring `std::error::Error::source`.  `leaf` has no
attached cause; `node` has one. -/
inductive EngineError where
  | leaf : String → EngineError
  | node : String → EngineError → EngineError
deriving DecidableEq, Inhabited

/-- Model of `e.source()`: the directly attached cause, if any. -/
def EngineError.source : EngineError → Option EngineError
  | .leaf _ => none
  | .node _ s => some s

/-- Model of `e.to_string()`: the display text of the error itself (Rust `Display`
renders an error's own message, not its causes). -/
def EngineError.display : EngineError → String
  | .leaf m => m
  | .node m _ => m

/-- The deepest (innermost) message of the cause chain, i.e. the display
text of the last error reachable through `source`.  This definition
follows the spec's words ("its cause chain's deepest/source message");
the code is compared against it. -/
def EngineError.deepestMessage : EngineError → String
  | .leaf m => m
  | .node _ s => s.deepestMessage

/-- Modelled from the spec: the crate's `Error` kinds relevant to this
module (`crate::error` is not part of this module's source):
`TemplateParseError(message)`, `TemplateRenderError(message)`, and the
generic `TemplateError` wrapping the engine's own error opaquely. -/
inductive Error where
  | TemplateParseError : String → Error
  | TemplateRenderError : String → Error
  | TemplateError : EngineError → Error
deriving DecidableEq, Inhabited

/-- Outcome of invoking a registered filter.  `typeErr` models the error
value produced by Tera's `try_get_value!` macro (returned to the engine,
hence to the renderer); `panic` models a Rust panic raised by
`expect`/`unwrap` inside the filter, which aborts instead of returning. -/
inductive FilterErr where
  | typeErr : String → String → FilterErr
  | panic : String → FilterErr
deriving DecidableEq, Inhabited

/-! ## Deserialization of filter inputs

`try_get_value!("commit_groups", "value", Vec<Commit>, value)` attempts
`serde` deserialization of the dynamic value.  `Commit`'s `Deserialize`
implementation is modelled from the spec's data model: an object with
required string fields `id` and `message` and an optional string field
`group` (absent or `null` deserializes to `None`); extra fields are
ignored, as serde does by default. -/

/-- Modelled from the spec: deserialize one `Commit` from a value. -/
def commitOfValue (v : Value) : Option Commit :=
  match v with
  | .obj fields =>
    match fields.lookup "id", fields.lookup "message" with
    | some (.str i), some (.str m) =>
      match fields.lookup "group" with
      | none => some ⟨i, m, none⟩
      | some .null => some ⟨i, m, none⟩
      | some (.str g) => some ⟨i, m, some g⟩
      | some _ => none
    | _, _ => none
  | _ => none

/-- Deserialize `Vec<Commit>` from a value: an array all of whose
elements deserialize as commits. -/
def commitsOfValue (v : Value) : Option (List Commit) :=
  match v with
  | .arr vs => vs.mapM commitOfValue
  | _ => none

/-- Deserialize `Vec<String>` from a value. -/
def stringsOfValue (v : Value) : Option (List String) :=
  match v with
  | .arr vs => vs.mapM (fun v => match v with | .str s => some s | _ => none)
  | _ => none

/-- Serialize a `Commit` back into a value (serde serializes the
`Option` field as `null` when absent). -/
def commitToValue (c : Commit) : Value :=
  .obj [("id", .str c.id), ("message", .str c.message),
        ("group", match c.group with | some g => .str g | none => .null)]

/-! ## The `commit_groups` filter pipeline -/

/-- The `retain` predicate of `commit_groups`, line by line:
`groups_ordered_filter.iter().any(|group| group == commit.group.as_deref().expect("commit must have group"))`.
`any` over an empty list never evaluates its closure, so the `expect`
(modelled as the `.error` branch) only fires when the list is nonempty. -/
def commitMatches (groups : List String) (c : Commit) :
    Except String Bool :=
  match groups, c.group with
  | [], _ => .ok false
  | _ :: _, none => .error "commit must have group"
  | gs, some cg => .ok (gs.any (fun g => g == cg))

/-- Model of `commits.retain(|commit| ...)`: keep, in order, the commits whose
group appears in `groups`; propagate the panic of the predicate. -/
def retainCommits (groups : List String) :
    List Commit → Except String (List Commit)
  | [] => .ok []
  | c :: cs =>
    match commitMatches groups c with
    | .error m => .error m
    | .ok b =>
      match retainCommits groups cs with
      | .error m => .error m
      | .ok rest => .ok (if b then c :: rest else rest)

/-- Append commit `c` to the bucket keyed `k`, creating the bucket at
the end if the key is new (the per-key `Vec` push of
`into_group_map_by`). -/
def insertPair (k : String) (c : Commit) :
    List (String × List Commit) → List (String × List Commit)
  | [] => [(k, [c])]
  | (k', cs) :: rest =>
    if k' = k then (k', cs ++ [c]) :: rest
    else (k', cs) :: insertPair k c rest

/-- Pure bucket construction: fold the commits into buckets keyed by
their group (`getD` is only reached on commits that carry a group; the
effectful wrapper below guards it). -/
def groupGo : List Commit → List (String × List Commit) →
    List (String × List Commit)
  | [], acc => acc
  | c :: cs, acc => groupGo cs (insertPair (c.group.getD "") c acc)

/-- Model of `into_group_map_by(|commit| commit.group.clone().expect("commit must have group"))`:
bucket the commits by group, panicking on a commit without one. -/
def groupPairsE : List Commit → List (String × List Commit) →
    Except String (List (String × List Commit))
  | [], acc => .ok acc
  | c :: cs, acc =>
    match c.group with
    | none => .error "commit must have group"
    | some k => groupPairsE cs (insertPair k c acc)

/-- Model of `groups_ordered_filter.iter().position(|group| group_name == group)`. -/
def posAux : List String → String → Option Nat
  | [], _ => none
  | g :: rest, k => if k == g then some 0 else (posAux rest k).map (· + 1)

/-- The sort key of step 3: the position of the bucket's group name in
the `groups` argument, with the
`.expect("commits have already been filtered to specified groups")`
panic when the name is absent. -/
def posE (groups : List String) (k : String) : Except String Nat :=
  match posAux groups k with
  | some i => .ok i
  | none => .error "commits have already been filtered to specified groups"

/-- Compute the sort key for every bucket (failing with the `expect`
panic if any lookup fails). -/
def attachPos (groups : List String) :
    List (String × List Commit) →
    Except String (List (Nat × (String × List Commit)))
  | [] => .ok []
  | p :: rest =>
    match posE groups p.1 with
    | .error m => .error m
    | .ok i =>
      match attachPos groups rest with
      | .error m => .error m
      | .ok r => .ok ((i, p) :: r)

/-- Stable insertion into a list sorted by the numeric key. -/
def insertK (x : Nat × (String × List Commit)) :
    List (Nat × (String × List Commit)) →
    List (Nat × (String × List Commit))
  | [] => [x]
  | y :: l => if x.1 ≤ y.1 then x :: y :: l else y :: insertK x l

/-- Stable insertion sort by the numeric key (models the stable
`sorted_by_key` of itertools). -/
def isortK : List (Nat × (String × List Commit)) →
    List (Nat × (String × List Commit))
  | [] => []
  | x :: l => insertK x (isortK l)

/-- Model of `sorted_by_key(...)`: order the buckets by the position of their
group name in the `groups` argument. -/
def sortPairsE (groups : List String)
    (pairs : List (String × List Commit)) :
    Except String (List (String × List Commit)) :=
  match attachPos groups pairs with
  | .error m => .error m
  | .ok keyed => .ok ((isortK keyed).map Prod.snd)

/-- The whole grouping pipeline of the `commit_groups` filter body,
from the already-deserialized inputs to the ordered association list
that is inserted into the `IndexMap` (the `dbg!` call of the source is
debug instrumentation with no effect on the value).  The `String` error
is the message of the panic that aborts the pipeline, if one fires. -/
def commitGroupsCore (groups : List String) (commits : List Commit) :
    Except String (List (String × List Commit)) :=
  match retainCommits groups commits with
  | .error m => .error m
  | .ok retained =>
    match groupPairsE retained [] with
    | .error m => .error m
    | .ok pairs => sortPairsE groups pairs

/-- The registered filter `Template::commit_groups`:
deserialize the value as `Vec<Commit>` (`try_get_value!`), fetch the
required `groups` argument (`args.get("groups").expect(...)` — a panic
when absent), deserialize it as `Vec<String>`, run the pipeline, and
serialize the resulting ordered map. -/
def Template.commit_groups (value : Value)
    (args : List (String × Value)) : Except FilterErr Value :=
  match commitsOfValue value with
  | none => .error (.typeErr "commit_groups" "value")
  | some commits =>
    match args.lookup "groups" with
    | none => .error (.panic "groups must be present in args")
    | some gv =>
      match stringsOfValue gv with
      | none => .error (.typeErr "commit_groups" "groups")
      | some groups =>
        match commitGroupsCore groups commits with
        | .error m => .error (.panic m)
        | .ok pairs =>
          .ok (.obj (pairs.map (fun p => (p.1, .arr (p.2.map commitToValue)))))

/-! ## The `upper_first_filter` filter -/

/-- The string transform of `upper_first_filter`: `s.chars()`, take the
first scalar if any, map it through the uppercase mapping `upc`
(Rust's `char::to_uppercase`, taken as a parameter since the Unicode
table is external), and append the untouched remainder. -/
def upperFirst (upc : Char → List Char) (s : String) : String :=
  match s.data with
  | [] => ""
  | f :: rest => ⟨upc f ++ rest⟩

/-- The registered filter `Template::upper_first_filter`: extract a
`String` from the value (`try_get_value!`), transform it, serialize it
back. -/
def Template.upper_first_filter (upc : Char → List Char) (value : Value)
    (_args : List (String × Value)) : Except FilterErr Value :=
  match value with
  | .str s => .ok (.str (upperFirst upc s))
  | _ => .error (.typeErr "upper_first_filter" "value")

/-! ## Renderer construction and rendering -/

/-- Model of `Template::new`: the engine's `add_raw_template` outcome is the
parameter (parsing is the engine's job).  On failure, translate: a
directly attached cause yields `TemplateParseError` with that cause's
display text, otherwise the engine error is wrapped opaquely. -/
def Template.new (parseResult : Except EngineError Unit) :
    Except Error Unit :=
  match parseResult with
  | .ok _ => .ok ()
  | .error e =>
    match e.source with
    | some errorSource => .error (.TemplateParseError errorSource.display)
    | none => .error (.TemplateError e)

/-- The evaluation context handed to the engine (`tera::Context`): a
finite map from top-level keys to values, modelled as an association
list. -/
def Context := List (String × Value)

/-- Model of `context.insert(key, value)`: bind `key`, replacing any previous
binding. -/
def contextInsert (ctx : Context) (k : String) (v : Value) : Context :=
  (k, v) :: List.filter (fun p => p.1 ≠ k) ctx

/-- Model of `TeraContext::from_serialize(release)`: serialize the release's
fields into the context, `Option` fields becoming `null` when absent
(serde's default for `Option`), recursing into `previous`. -/
def releaseToValue : Release → Value
  | .mk v c t cs p =>
    .obj [("version", match v with | some s => .str s | none => .null),
          ("commit_id", match c with | some s => .str s | none => .null),
          ("timestamp", .num t),
          ("commits", .arr (cs.map commitToValue)),
          ("previous", match p with
            | some pr => releaseToValue pr
            | none => .null)]

/-- The top-level context obtained from a release: one key per field. -/
def contextFromSerialize (r : Release) : Context :=
  [("version", match r.version with | some v => .str v | none => .null),
   ("commit_id", match r.commit_id with | some c => .str c | none => .null),
   ("timestamp", .num r.timestamp),
   ("commits", .arr (r.commits.map commitToValue)),
   ("previous", match r.previous with
     | some p => releaseToValue p
     | none => .null)]

/-- Model of `Template::render`: build the context from the release, evaluate the
compiled template (the engine's evaluation is the parameter `eval`),
and translate a failure exactly as `Template::new` does, but tagged
`TemplateRenderError`. -/
def Template.render (eval : Context → Except EngineError String)
    (release : Release) : Except Error String :=
  let context := contextFromSerialize release
  match eval context with
  | .ok v => .ok v
  | .error e =>
    match e.source with
    | some errorSource => .error (.TemplateRenderError errorSource.display)
    | none => .error (.TemplateError e)

/-- Model of `Template::render_with_groups`: identical to `render` except that
the context additionally binds the `groups` sequence under the key
`"commit_groups_filter"` before evaluation. -/
def Template.render_with_groups
    (eval : Context → Except EngineError String) (release : Release)
    (groups : List String) : Except Error String :=
  let context := contextFromSerialize release
  let context := contextInsert context "commit_groups_filter"
    (.arr (groups.map .str))
  match eval context with
  | .ok v => .ok v
  | .error e =>
    match e.source with
    | some errorSource => .error (.TemplateRenderError errorSource.display)
    | none => .error (.TemplateError e)

/-- Position of a group name in the `groups` argument, defaulted past
the end when absent (every emitted key is present, so the default is
never the value used in the theorems' conclusions). -/
def posP (groups : List String) (k : String) : Nat :=
  (posAux groups k).getD groups.length

/-- The retain predicate, pure form: the commit carries a group that
appears in `groups`. -/
def matchesPure (groups : List String) (c : Commit) : Bool :=
  match c.group with
  | some cg => groups.any (fun g => g == cg)
  | none => false

/-- Bucket lookup in an association list of buckets (first match). -/
def findBucket : List (String × List Commit) → String → List Commit
  | [], _ => []
  | p :: rest, k => if p.1 = k then p.2 else findBucket rest k

/-! ## Concrete fixtures used by witnesses -/

/-- Commit fixture: a fix-type commit with message A. -/
def cFixA : Commit := ⟨"1", "A", some "fix"⟩

/-- Commit fixture: a feat-type commit with message B. -/
def cFeatB : Commit := ⟨"2", "B", some "feat"⟩

/-- Commit fixture: a fix-type commit with message C. -/
def cFixC : Commit := ⟨"3", "C", some "fix"⟩

/-- Commit fixture: a feat-type commit with message D. -/
def cFeatD : Commit := ⟨"4", "D", some "feat"⟩

/-- A concrete uppercase mapping for witnesses: sharp s expands to two
characters (a multi-character uppercase expansion), everything else maps
through ASCII `toUpper`. -/
def upcTest (c : Char) : List Char :=
  if c = 'ß' then ['S', 'S'] else [c.toUpper]

/-- An evaluation function fixture that ignores its context. -/
def evalConst (out : String) : Context → Except EngineError String :=
  fun _ => .ok out

/-- An evaluation function fixture that fails with a two-level cause
chain. -/
def evalErrChain : Context → Except EngineError String :=
  fun _ => .error (.node "top" (.leaf "deep"))

/-- An evaluation function fixture that fails with a causeless error. -/
def evalErrLeaf : Context → Except EngineError String :=
  fun _ => .error (.leaf "plain")

/-- A minimal release fixture. -/
def releaseEmpty : Release := .mk none none 0 [] none

/-! ## Lemmas about the retain step -/

theorem commitMatches_of_isSome (groups : List String) (c : Commit)
    (h : c.group.isSome) :
    commitMatches groups c = .ok (matchesPure groups c) := by
  obtain ⟨cg, hcg⟩ := Option.isSome_iff_exists.mp h
  cases groups <;> simp [commitMatches, matchesPure, hcg]

theorem retain_ok_of_isSome (groups : List String) (commits : List Commit)
    (h : ∀ c ∈ commits, c.group.isSome) :
    retainCommits groups commits =
      .ok (commits.filter (matchesPure groups)) := by
  induction commits with
  | nil => rfl
  | cons c cs ih =>
    have hc : c.group.isSome := h c (List.mem_cons_self c cs)
    have hcs : ∀ x ∈ cs, x.group.isSome := fun x hx => h x (List.mem_cons_of_mem c hx)
    cases hm : matchesPure groups c <;>
      simp [retainCommits, commitMatches_of_isSome groups c hc, ih hcs,
        List.filter_cons, hm]

theorem retain_sound (groups : List String) :
    ∀ (commits retained : List Commit),
      retainCommits groups commits = .ok retained →
      ∀ c ∈ retained, commitMatches groups c = .ok true := by
  intro commits
  induction commits with
  | nil =>
    intro retained hr c hc
    simp only [retainCommits] at hr
    cases hr
    simp at hc
  | cons c cs ih =>
    intro retained hr x hx
    simp only [retainCommits] at hr
    cases hm : commitMatches groups c with
    | error m => simp [hm] at hr
    | ok b =>
      cases hrest : retainCommits groups cs with
      | error m => simp [hm, hrest] at hr
      | ok rest =>
        simp only [hm, hrest, Except.ok.injEq] at hr
        cases b with
        | false =>
          have hr' : rest = retained := by simpa using hr
          exact ih rest hrest x (hr' ▸ hx)
        | true =>
          have hr' : c :: rest = retained := by simpa using hr
          rcases List.mem_cons.mp (hr' ▸ hx) with h₁ | h₁
          · exact h₁ ▸ hm
          · exact ih rest hrest x h₁

theorem commitMatches_ok_true (groups : List String) (c : Commit)
    (h : commitMatches groups c = .ok true) :
    ∃ cg, c.group = some cg ∧ groups.any (fun g => g == cg) = true := by
  cases groups with
  | nil => simp [commitMatches] at h
  | cons g gs =>
    cases hcg : c.group with
    | none => simp [commitMatches, hcg] at h
    | some cg =>
      refine ⟨cg, rfl, ?_⟩
      simpa [commitMatches, hcg] using h

theorem retain_panics (groups : List String) (hg : groups ≠ [])
    (commits : List Commit) (hsome : ∃ c ∈ commits, c.group = none) :
    retainCommits groups commits = .error "commit must have group" := by
  induction commits with
  | nil => simp at hsome
  | cons c cs ih =>
    obtain ⟨x, hx, hxg⟩ := hsome
    obtain ⟨g, gs, rfl⟩ := List.exists_cons_of_ne_nil hg
    rcases List.mem_cons.mp hx with hx' | hx'
    · subst hx'
      simp [retainCommits, commitMatches, hxg]
    · simp only [retainCommits]
      cases hm : commitMatches (g :: gs) c with
      | error m =>
        have : m = "commit must have group" := by
          cases hcg : c.group with
          | none => simpa [commitMatches, hcg] using hm.symm
          | some cg => simp [commitMatches, hcg] at hm
        rw [this]
      | ok b =>
        rw [ih ⟨x, hx', hxg⟩]

/-! ## Lemmas about the position lookup -/

theorem posAux_inj (groups : List String) :
    ∀ k₁ k₂ i, posAux groups k₁ = some i → posAux groups k₂ = some i →
      k₁ = k₂ := by
  induction groups with
  | nil => intro k₁ k₂ i h; simp [posAux] at h
  | cons g gs ih =>
    intro k₁ k₂ i h₁ h₂
    by_cases e₁ : k₁ = g <;> by_cases e₂ : k₂ = g
    · exact e₁.trans e₂.symm
    · subst e₁
      simp only [posAux, beq_self_eq_true, if_pos] at h₁
      simp only [posAux, beq_iff_eq, if_neg e₂] at h₂
      cases h₁
      rcases Option.map_eq_some'.mp h₂ with ⟨j, _, hj⟩
      omega
    · subst e₂
      simp only [posAux, beq_self_eq_true, if_pos] at h₂
      simp only [posAux, beq_iff_eq, if_neg e₁] at h₁
      cases h₂
      rcases Option.map_eq_some'.mp h₁ with ⟨j, _, hj⟩
      omega
    · simp only [posAux, beq_iff_eq, if_neg e₁] at h₁
      simp only [posAux, beq_iff_eq, if_neg e₂] at h₂
      rcases Option.map_eq_some'.mp h₁ with ⟨j₁, hj₁, hj₁'⟩
      rcases Option.map_eq_some'.mp h₂ with ⟨j₂, hj₂, hj₂'⟩
      have : j₁ = j₂ := by omega
      exact ih k₁ k₂ j₁ hj₁ (this ▸ hj₂)

theorem posAux_isSome_of_any (groups : List String) (k : String)
    (h : groups.any (fun g => g == k) = true) :
    ∃ i, posAux groups k = some i := by
  induction groups with
  | nil => simp at h
  | cons g gs ih =>
    by_cases e : k = g
    · exact ⟨0, by simp [posAux, e]⟩
    · simp only [List.any_cons, Bool.or_eq_true, beq_iff_eq] at h
      rcases h with h | h
      · exact absurd h.symm e
      · obtain ⟨i, hi⟩ := ih h
        exact ⟨i + 1, by simp [posAux, e, hi]⟩

theorem posE_ok_of_any (groups : List String) (k : String)
    (h : groups.any (fun g => g == k) = true) :
    posE groups k = .ok (posP groups k) := by
  obtain ⟨i, hi⟩ := posAux_isSome_of_any groups k h
  simp [posE, posP, hi]

/-! ## Lemmas about the bucket construction -/

theorem mem_keys_insertPair (k k' : String) (c : Commit)
    (acc : List (String × List Commit)) :
    k' ∈ (insertPair k c acc).map Prod.fst ↔
      k' ∈ acc.map Prod.fst ∨ k' = k := by
  induction acc with
  | nil => simp [insertPair]
  | cons p rest ih =>
    by_cases e : p.1 = k
    · cases p with
      | mk pk pcs =>
        simp only at e
        subst e
        simp [insertPair]
        tauto
    · cases p with
      | mk pk pcs =>
        simp only at e
        simp [insertPair, e, ih]
        tauto

theorem nodup_keys_insertPair (k : String) (c : Commit)
    (acc : List (String × List Commit))
    (h : (acc.map Prod.fst).Nodup) :
    ((insertPair k c acc).map Prod.fst).Nodup := by
  induction acc with
  | nil => simp [insertPair]
  | cons p rest ih =>
    cases p with
    | mk pk pcs =>
      simp only [List.map_cons, List.nodup_cons] at h
      by_cases e : pk = k
      · subst e
        simp [insertPair, List.nodup_cons, h.1, h.2]
      · simp only [insertPair, if_neg e, List.map_cons, List.nodup_cons]
        refine ⟨?_, ih h.2⟩
        rw [mem_keys_insertPair]
        push_neg
        exact ⟨h.1, e⟩

theorem findBucket_insertPair_self (k : String) (c : Commit)
    (acc : List (String × List Commit)) :
    findBucket (insertPair k c acc) k = findBucket acc k ++ [c] := by
  induction acc with
  | nil => simp [insertPair, findBucket]
  | cons p rest ih =>
    cases p with
    | mk pk pcs =>
      by_cases e : pk = k
      · subst e
        simp [insertPair, findBucket]
      · simp [insertPair, findBucket, e, ih]

theorem findBucket_insertPair_ne (k k' : String) (c : Commit)
    (acc : List (String × List Commit)) (h : k' ≠ k) :
    findBucket (insertPair k c acc) k' = findBucket acc k' := by
  induction acc with
  | nil => simp [insertPair, findBucket, Ne.symm h]
  | cons p rest ih =>
    cases p with
    | mk pk pcs =>
      by_cases e : pk = k
      · subst e
        simp only [insertPair, if_pos rfl, findBucket]
        rw [if_neg (Ne.symm h), if_neg (Ne.symm h)]
      · by_cases e' : pk = k'
        · subst e'
          simp [insertPair, findBucket, e]
        · simp [insertPair, findBucket, e, e', ih]

theorem mem_keys_groupGo (cs : List Commit)
    (acc : List (String × List Commit)) (k : String) :
    k ∈ (groupGo cs acc).map Prod.fst ↔
      k ∈ acc.map Prod.fst ∨ ∃ c ∈ cs, c.group.getD "" = k := by
  induction cs generalizing acc with
  | nil => simp [groupGo]
  | cons c cs ih =>
    simp only [groupGo, ih, mem_keys_insertPair, List.mem_cons]
    constructor
    · rintro (⟨h | h⟩ | ⟨x, hx, hk⟩)
      · exact Or.inl h
      · exact Or.inr ⟨c, Or.inl rfl, h.symm⟩
      · exact Or.inr ⟨x, Or.inr hx, hk⟩
    · rintro (h | ⟨x, hx | hx, hk⟩)
      · exact Or.inl (Or.inl h)
      · exact Or.inl (Or.inr (hx ▸ hk).symm)
      · exact Or.inr ⟨x, hx, hk⟩

theorem nodup_keys_groupGo (cs : List Commit)
    (acc : List (String × List Commit))
    (h : (acc.map Prod.fst).Nodup) :
    ((groupGo cs acc).map Prod.fst).Nodup := by
  induction cs generalizing acc with
  | nil => exact h
  | cons c cs ih =>
    exact ih _ (nodup_keys_insertPair _ c acc h)

theorem findBucket_groupGo (cs : List Commit)
    (acc : List (String × List Commit)) (k : String) :
    findBucket (groupGo cs acc) k =
      findBucket acc k ++ cs.filter (fun c => c.group.getD "" == k) := by
  induction cs generalizing acc with
  | nil => simp [groupGo]
  | cons c cs ih =>
    simp only [groupGo, ih, List.filter_cons]
    by_cases e : c.group.getD "" = k
    · rw [if_pos (by simpa using e), e, findBucket_insertPair_self]
      simp
    · rw [if_neg (by simpa using e),
        findBucket_insertPair_ne _ _ _ _ (fun h' => e h'.symm)]

theorem snd_eq_findBucket_of_nodup (pairs : List (String × List Commit))
    (h : (pairs.map Prod.fst).Nodup) :
    ∀ p ∈ pairs, p.2 = findBucket pairs p.1 := by
  induction pairs with
  | nil => simp
  | cons q rest ih =>
    intro p hp
    simp only [List.map_cons, List.nodup_cons] at h
    rcases List.mem_cons.mp hp with hq | hq
    · subst hq
      simp [findBucket]
    · have hne : q.1 ≠ p.1 := fun e => h.1 (e ▸ List.mem_map_of_mem Prod.fst hq)
      simp only [findBucket, if_neg hne]
      exact ih h.2 p hq

theorem groupPairsE_eq_go (cs : List Commit)
    (acc : List (String × List Commit))
    (h : ∀ c ∈ cs, c.group.isSome) :
    groupPairsE cs acc = .ok (groupGo cs acc) := by
  induction cs generalizing acc with
  | nil => rfl
  | cons c cs ih =>
    obtain ⟨cg, hcg⟩ := Option.isSome_iff_exists.mp (h c (List.mem_cons_self c cs))
    simp only [groupPairsE, groupGo, hcg, Option.getD_some]
    exact ih _ (fun x hx => h x (List.mem_cons_of_mem c hx))

/-! ## Lemmas about the sort step -/

theorem insertK_perm (x : Nat × (String × List Commit))
    (l : List (Nat × (String × List Commit))) :
    (insertK x l).Perm (x :: l) := by
  induction l with
  | nil => simp [insertK]
  | cons y l ih =>
    by_cases hle : x.1 ≤ y.1
    · simp [insertK, hle]
    · simp only [insertK, if_neg hle]
      exact (ih.cons y).trans (List.Perm.swap x y l)

theorem isortK_perm (l : List (Nat × (String × List Commit))) :
    (isortK l).Perm l := by
  induction l with
  | nil => simp [isortK]
  | cons x l ih =>
    exact (insertK_perm x (isortK l)).trans (ih.cons x)

theorem insertK_pairwise (x : Nat × (String × List Commit))
    (l : List (Nat × (String × List Commit)))
    (h : l.Pairwise (fun a b => a.1 ≤ b.1)) :
    (insertK x l).Pairwise (fun a b => a.1 ≤ b.1) := by
  induction l with
  | nil => simp [insertK]
  | cons y l ih =>
    rcases List.pairwise_cons.mp h with ⟨hy, hl⟩
    by_cases hle : x.1 ≤ y.1
    · simp only [insertK, if_pos hle]
      exact List.pairwise_cons.mpr
        ⟨fun z hz => by
          rcases List.mem_cons.mp hz with hz | hz
          · exact hz ▸ hle
          · exact le_trans hle (hy z hz), h⟩
    · simp only [insertK, if_neg hle]
      refine List.pairwise_cons.mpr ⟨fun z hz => ?_, ih hl⟩
      rcases List.mem_cons.mp ((insertK_perm x l).mem_iff.mp hz) with hz₁ | hz₁
      · exact hz₁ ▸ le_of_not_le hle
      · exact hy z hz₁

theorem isortK_pairwise (l : List (Nat × (String × List Commit))) :
    (isortK l).Pairwise (fun a b => a.1 ≤ b.1) := by
  induction l with
  | nil => simp [isortK]
  | cons x l ih => exact insertK_pairwise x (isortK l) ih

theorem attachPos_ok (groups : List String)
    (pairs : List (String × List Commit))
    (h : ∀ p ∈ pairs, groups.any (fun g => g == p.1) = true) :
    attachPos groups pairs =
      .ok (pairs.map (fun p => (posP groups p.1, p))) := by
  induction pairs with
  | nil => rfl
  | cons p rest ih =>
    rw [attachPos, posE_ok_of_any groups p.1 (h p (List.mem_cons_self p rest)),
      ih (fun q hq => h q (List.mem_cons_of_mem p hq))]
    rfl

/-- Two lists that are both strictly sorted by the same numeric measure
and have the same members are equal. -/
theorem eq_of_sorted_of_mem_iff {α : Type} {f : α → Nat} :
    ∀ {l₁ l₂ : List α}, l₁.Pairwise (fun a b => f a < f b) →
      l₂.Pairwise (fun a b => f a < f b) →
      (∀ x, x ∈ l₁ ↔ x ∈ l₂) → l₁ = l₂ := by
  intro l₁
  induction l₁ with
  | nil =>
    intro l₂ _ _ hmem
    cases l₂ with
    | nil => rfl
    | cons b t₂ => exact absurd ((hmem b).mpr (List.mem_cons_self b t₂)) (by simp)
  | cons a t₁ ih =>
    intro l₂ h₁ h₂ hmem
    cases l₂ with
    | nil => exact absurd ((hmem a).mp (List.mem_cons_self a t₁)) (by simp)
    | cons b t₂ =>
      rcases List.pairwise_cons.mp h₁ with ⟨ha, ht₁⟩
      rcases List.pairwise_cons.mp h₂ with ⟨hb, ht₂⟩
      have hab : a = b := by
        by_contra hne
        have ha2 : a ∈ t₂ := by
          rcases List.mem_cons.mp ((hmem a).mp (List.mem_cons_self a t₁)) with h | h
          · exact absurd h hne
          · exact h
        have hb1 : b ∈ t₁ := by
          rcases List.mem_cons.mp ((hmem b).mpr (List.mem_cons_self b t₂)) with h | h
          · exact absurd h.symm hne
          · exact h
        exact absurd (lt_trans (hb a ha2) (ha b hb1)) (lt_irrefl (f b))
      subst hab
      have : t₁ = t₂ := by
        refine ih ht₁ ht₂ (fun x => ⟨fun hx => ?_, fun hx => ?_⟩)
        · rcases List.mem_cons.mp ((hmem x).mp (List.mem_cons_of_mem a hx)) with h | h
          · exact absurd (h ▸ ha x hx) (lt_irrefl (f x))
          · exact h
        · rcases List.mem_cons.mp ((hmem x).mpr (List.mem_cons_of_mem a hx)) with h | h
          · exact absurd (h ▸ hb x hx) (lt_irrefl (f x))
          · exact h
      rw [this]

/-! ## The pipeline characterization

Under the filter's precondition (every commit carries a group — the
spec's §3 invariant), the grouping pipeline succeeds and its output is
characterized: keys are duplicate-free and strictly ascending in the
position of the `groups` argument, every key is a member of `groups`,
every bucket is exactly the input-order filter of the commits with that
group, and a key is emitted exactly when some retained commit carries
it. -/

theorem matchesPure_any (groups : List String) (c : Commit) (k : String)
    (hm : matchesPure groups c = true) (hk : c.group.getD "" = k) :
    groups.any (fun g => g == k) = true := by
  cases hcg : c.group with
  | none => simp [matchesPure, hcg] at hm
  | some cg =>
    rw [hcg, Option.getD_some] at hk
    subst hk
    simpa [matchesPure, hcg] using hm

theorem pipeline_spec (groups : List String) (commits : List Commit)
    (h : ∀ c ∈ commits, c.group.isSome) :
    ∃ out, commitGroupsCore groups commits = .ok out ∧
      (out.map Prod.fst).Nodup ∧
      (out.map Prod.fst).Pairwise
        (fun a b => posP groups a < posP groups b) ∧
      (∀ p ∈ out, groups.any (fun g => g == p.1) = true) ∧
      (∀ p ∈ out, p.2 = commits.filter (fun c => c.group == some p.1)) ∧
      (∀ k, k ∈ out.map Prod.fst ↔
        ∃ c ∈ commits, matchesPure groups c = true ∧ c.group = some k) := by
  classical
  set retained := commits.filter (matchesPure groups) with hretained
  have hretmem : ∀ c ∈ retained, c ∈ commits ∧ matchesPure groups c = true :=
    fun c hc => List.mem_filter.mp hc
  have hretsome : ∀ c ∈ retained, c.group.isSome :=
    fun c hc => h c (hretmem c hc).1
  have h1 : retainCommits groups commits = .ok retained :=
    retain_ok_of_isSome groups commits h
  set pairs := groupGo retained [] with hpairs
  have h2 : groupPairsE retained [] = .ok pairs :=
    groupPairsE_eq_go retained [] hretsome
  have hkeys_nodup : (pairs.map Prod.fst).Nodup :=
    nodup_keys_groupGo retained [] (by simp)
  have hkeys_mem : ∀ k, k ∈ pairs.map Prod.fst ↔
      ∃ c ∈ retained, c.group.getD "" = k := by
    intro k
    simpa using mem_keys_groupGo retained [] k
  have hany_of_key : ∀ k, k ∈ pairs.map Prod.fst →
      groups.any (fun g => g == k) = true := by
    intro k hk
    obtain ⟨c, hc, hck⟩ := (hkeys_mem k).mp hk
    exact matchesPure_any groups c k (hretmem c hc).2 hck
  have hany_pairs : ∀ p ∈ pairs, groups.any (fun g => g == p.1) = true :=
    fun p hp => hany_of_key p.1 (List.mem_map_of_mem Prod.fst hp)
  set keyed := pairs.map (fun p => (posP groups p.1, p)) with hkeyed
  have h3 : attachPos groups pairs = .ok keyed :=
    attachPos_ok groups pairs hany_pairs
  set sorted := isortK keyed with hsorted
  set out := sorted.map Prod.snd with hout
  have h4 : sortPairsE groups pairs = .ok out := by
    rw [sortPairsE, h3]
  have hcore : commitGroupsCore groups commits = .ok out := by
    simp only [commitGroupsCore, h1, h2, h4]
  have hperm : sorted.Perm keyed := isortK_perm keyed
  have hkeyedsnd : keyed.map Prod.snd = pairs := by
    rw [hkeyed, List.map_map]
    exact List.map_id pairs
  have hmem_out : ∀ x, x ∈ out ↔ x ∈ pairs := by
    intro x
    rw [hout, ← hkeyedsnd]
    exact (hperm.map Prod.snd).mem_iff
  have hkeyedfst1 : keyed.map (fun e => e.2.1) = pairs.map Prod.fst := by
    rw [hkeyed, List.map_map]
    rfl
  have houtfst : out.map Prod.fst = sorted.map (fun e => e.2.1) := by
    rw [hout, List.map_map]
    rfl
  have hkeysout_perm : (out.map Prod.fst).Perm (pairs.map Prod.fst) := by
    rw [houtfst, ← hkeyedfst1]
    exact hperm.map _
  have hkeysout_nodup : (out.map Prod.fst).Nodup :=
    hkeysout_perm.symm.nodup hkeys_nodup
  have hposP_inj : ∀ x ∈ pairs.map Prod.fst, ∀ y ∈ pairs.map Prod.fst,
      posP groups x = posP groups y → x = y := by
    intro x hx y hy hxy
    obtain ⟨i, hi⟩ := posAux_isSome_of_any groups x (hany_of_key x hx)
    obtain ⟨j, hj⟩ := posAux_isSome_of_any groups y (hany_of_key y hy)
    rw [posP, hi, Option.getD_some] at hxy
    rw [posP, hj, Option.getD_some] at hxy
    exact posAux_inj groups x y i hi (hxy ▸ hj)
  have hfst_nodup : (keyed.map Prod.fst).Nodup := by
    have : keyed.map Prod.fst = (pairs.map Prod.fst).map (posP groups) := by
      rw [hkeyed, List.map_map, List.map_map]
      rfl
    rw [this]
    exact List.Nodup.map_on hposP_inj hkeys_nodup
  have hsorted_fst_nodup : (sorted.map Prod.fst).Nodup :=
    ((hperm.map Prod.fst).symm).nodup hfst_nodup
  have hsorted_ne : sorted.Pairwise (fun a b => a.1 ≠ b.1) :=
    List.pairwise_map.mp hsorted_fst_nodup
  have hsorted_lt : sorted.Pairwise (fun a b => a.1 < b.1) :=
    ((isortK_pairwise keyed).and hsorted_ne).imp
      (fun hab => lt_of_le_of_ne hab.1 hab.2)
  have hinv : ∀ e ∈ sorted, e.1 = posP groups e.2.1 := by
    intro e he
    obtain ⟨p, _, hpe⟩ := List.mem_map.mp (hperm.mem_iff.mp he)
    rw [← hpe]
  have hsorted_posP :
      sorted.Pairwise (fun a b => posP groups a.2.1 < posP groups b.2.1) :=
    List.Pairwise.imp_of_mem
      (fun ha hb hab => (hinv _ ha) ▸ (hinv _ hb) ▸ hab) hsorted_lt
  have hout_pairwise : (out.map Prod.fst).Pairwise
      (fun a b => posP groups a < posP groups b) := by
    rw [houtfst]
    exact List.pairwise_map.mpr hsorted_posP
  have hany_out : ∀ p ∈ out, groups.any (fun g => g == p.1) = true :=
    fun p hp => hany_pairs p ((hmem_out p).mp hp)
  have hbucket : ∀ p ∈ out,
      p.2 = commits.filter (fun c => c.group == some p.1) := by
    intro p hp
    have hp' : p ∈ pairs := (hmem_out p).mp hp
    have hfb : p.2 = findBucket pairs p.1 :=
      snd_eq_findBucket_of_nodup pairs hkeys_nodup p hp'
    have hfb2 : findBucket pairs p.1 =
        retained.filter (fun c => c.group.getD "" == p.1) := by
      rw [hpairs, findBucket_groupGo]
      rfl
    rw [hfb, hfb2, hretained, List.filter_filter]
    refine List.filter_congr (fun c hc => ?_)
    obtain ⟨cg, hcg⟩ := Option.isSome_iff_exists.mp (h c hc)
    by_cases e : cg = p.1
    · subst e
      have hmem : p.1 ∈ groups := by simpa using hany_out p hp
      simp [hcg, matchesPure, hmem]
    · simp [hcg, matchesPure, e]
  have hmem_keys : ∀ k, k ∈ out.map Prod.fst ↔
      ∃ c ∈ commits, matchesPure groups c = true ∧ c.group = some k := by
    intro k
    rw [hkeysout_perm.mem_iff, hkeys_mem]
    constructor
    · rintro ⟨c, hc, hck⟩
      obtain ⟨cg, hcg⟩ := Option.isSome_iff_exists.mp (hretsome c hc)
      rw [hcg, Option.getD_some] at hck
      exact ⟨c, (hretmem c hc).1, (hretmem c hc).2, hck ▸ hcg⟩
    · rintro ⟨c, hc, hcm, hck⟩
      exact ⟨c, List.mem_filter.mpr ⟨hc, hcm⟩, by simp [hck]⟩
  exact ⟨out, hcore, hkeysout_nodup, hout_pairwise, hany_out, hbucket,
    hmem_keys⟩

/-- Success and soundness of the bucket construction: when it returns,
every commit carried a group and the result is the pure fold. -/
theorem groupPairsE_ok_sound (cs : List Commit) :
    ∀ (acc pairs : List (String × List Commit)),
      groupPairsE cs acc = .ok pairs →
      (∀ c ∈ cs, c.group.isSome) ∧ pairs = groupGo cs acc := by
  induction cs with
  | nil =>
    intro acc pairs hp
    simp only [groupPairsE, Except.ok.injEq] at hp
    exact ⟨by simp, hp.symm ▸ rfl⟩
  | cons c cs ih =>
    intro acc pairs hp
    cases hcg : c.group with
    | none => simp [groupPairsE, hcg] at hp
    | some k =>
      simp only [groupPairsE, hcg] at hp
      obtain ⟨hall, hgo⟩ := ih _ pairs hp
      refine ⟨fun x hx => ?_, by simpa [groupGo, hcg] using hgo⟩
      rcases List.mem_cons.mp hx with hx | hx
      · simp [hx, hcg]
      · exact hall x hx

/-! ## The claims -/

/-- C1: for every input commit sequence and every ordering list, the
`commit_groups` filter emits its groups in the positional order of the
ordering list (strictly ascending index of the group name in the
`groups` argument), and the emitted group order is independent of the
order in which the commits arrive (permuting the input leaves the key
sequence unchanged). -/
theorem claim_C1_group_order (groups : List String) (commits : List Commit)
    (h : ∀ c ∈ commits, c.group.isSome) :
    ∃ out, commitGroupsCore groups commits = .ok out ∧
      (out.map Prod.fst).Pairwise
        (fun a b => posP groups a < posP groups b) ∧
      ∀ commits', commits.Perm commits' →
        ∃ out', commitGroupsCore groups commits' = .ok out' ∧
          out'.map Prod.fst = out.map Prod.fst := by
  obtain ⟨out, hcore, hnodup, hpw, hany, hbucket, hmem⟩ :=
    pipeline_spec groups commits h
  refine ⟨out, hcore, hpw, ?_⟩
  intro commits' hpermc
  have h' : ∀ c ∈ commits', c.group.isSome :=
    fun c hc => h c (hpermc.mem_iff.mpr hc)
  obtain ⟨out', hcore', hnodup', hpw', _, _, hmem'⟩ :=
    pipeline_spec groups commits' h'
  refine ⟨out', hcore', ?_⟩
  refine eq_of_sorted_of_mem_iff (f := posP groups) hpw' hpw (fun k => ?_)
  rw [hmem' k, hmem k]
  constructor <;> rintro ⟨c, hc, hm, hg⟩
  · exact ⟨c, hpermc.mem_iff.mpr hc, hm, hg⟩
  · exact ⟨c, hpermc.mem_iff.mp hc, hm, hg⟩

/-- Witness for C1 at the spec's own example: ordering
`["feat","fix"]`, input `[fix A, feat B, fix C, feat D]`, output
`feat -> [B, D], fix -> [A, C]`, plus the theorem instantiated there. -/
theorem claim_C1_witness :
    (commitGroupsCore ["feat", "fix"] [cFixA, cFeatB, cFixC, cFeatD] =
      .ok [("feat", [cFeatB, cFeatD]), ("fix", [cFixA, cFixC])]) ∧
    ∃ out, commitGroupsCore ["feat", "fix"]
        [cFixA, cFeatB, cFixC, cFeatD] = .ok out ∧
      (out.map Prod.fst).Pairwise
        (fun a b => posP ["feat", "fix"] a < posP ["feat", "fix"] b) ∧
      ∀ commits', [cFixA, cFeatB, cFixC, cFeatD].Perm commits' →
        ∃ out', commitGroupsCore ["feat", "fix"] commits' = .ok out' ∧
          out'.map Prod.fst = out.map Prod.fst :=
  ⟨rfl, claim_C1_group_order ["feat", "fix"] [cFixA, cFeatB, cFixC, cFeatD]
    (by decide)⟩

/-- C2: the `commit_groups` filter is a stable partition: every emitted
bucket is exactly the input-order filter of the commits carrying that
group (so relative order within a group is preserved), and every commit
appearing in the output carries a group that appears in the `groups`
argument (commits with an absent group name never appear). -/
theorem claim_C2_stable_partition (groups : List String)
    (commits : List Commit) (h : ∀ c ∈ commits, c.group.isSome) :
    ∃ out, commitGroupsCore groups commits = .ok out ∧
      ∀ p ∈ out, p.2 = commits.filter (fun c => c.group == some p.1) ∧
        ∀ c ∈ p.2, c.group = some p.1 ∧ p.1 ∈ groups := by
  obtain ⟨out, hcore, _, _, hany, hbucket, _⟩ :=
    pipeline_spec groups commits h
  refine ⟨out, hcore, fun p hp => ⟨hbucket p hp, fun c hc => ?_⟩⟩
  rw [hbucket p hp] at hc
  have := (List.mem_filter.mp hc).2
  refine ⟨by simpa using this, by simpa using hany p hp⟩

/-- Witness for C2 at the spec's example input. -/
theorem claim_C2_witness :
    ∃ out, commitGroupsCore ["feat", "fix"]
        [cFixA, cFeatB, cFixC, cFeatD] = .ok out ∧
      ∀ p ∈ out, p.2 = [cFixA, cFeatB, cFixC, cFeatD].filter
          (fun c => c.group == some p.1) ∧
        ∀ c ∈ p.2, c.group = some p.1 ∧ p.1 ∈ ["feat", "fix"] :=
  claim_C2_stable_partition ["feat", "fix"] [cFixA, cFeatB, cFixC, cFeatD]
    (by decide)

/-- C10 (implicit): the output of `commit_groups` has a key for exactly
those group names carried by at least one retained commit — a group
name of the `groups` argument matched by no commit is omitted entirely
— and every emitted bucket is non-empty. -/
theorem claim_C10_no_empty_groups (groups : List String)
    (commits : List Commit) (h : ∀ c ∈ commits, c.group.isSome) :
    ∃ out, commitGroupsCore groups commits = .ok out ∧
      (∀ p ∈ out, p.2 ≠ []) ∧
      ∀ k, k ∈ out.map Prod.fst ↔
        ∃ c ∈ commits, c.group = some k ∧
          groups.any (fun g => g == k) = true := by
  obtain ⟨out, hcore, _, _, hany, hbucket, hmem⟩ :=
    pipeline_spec groups commits h
  refine ⟨out, hcore, fun p hp => ?_, fun k => ?_⟩
  · have hk : p.1 ∈ out.map Prod.fst := List.mem_map_of_mem Prod.fst hp
    obtain ⟨c, hc, hcm, hcg⟩ := (hmem p.1).mp hk
    have : c ∈ p.2 := by
      rw [hbucket p hp]
      exact List.mem_filter.mpr ⟨hc, by simp [hcg]⟩
    exact fun he => by simp [he] at this
  · rw [hmem k]
    constructor <;> rintro ⟨c, hc, h₁, h₂⟩
    · refine ⟨c, hc, h₂, ?_⟩
      simpa [matchesPure, h₂] using h₁
    · exact ⟨c, hc, by simpa [matchesPure, h₁] using h₂, h₁⟩

/-- Witness for C10: group `docs` appears in the ordering but matches
no commit, so it is absent from the output keys; both emitted buckets
are non-empty. -/
theorem claim_C10_witness :
    ∃ out, commitGroupsCore ["docs", "feat", "fix"]
        [cFixA, cFeatB, cFixC, cFeatD] = .ok out ∧
      (∀ p ∈ out, p.2 ≠ []) ∧
      ∀ k, k ∈ out.map Prod.fst ↔
        ∃ c ∈ [cFixA, cFeatB, cFixC, cFeatD], c.group = some k ∧
          ["docs", "feat", "fix"].any (fun g => g == k) = true :=
  claim_C10_no_empty_groups ["docs", "feat", "fix"]
    [cFixA, cFeatB, cFixC, cFeatD] (by decide)

/-- C6: under the precondition that step 1 (`retain`) succeeded — hence
only commits whose group appears in the `groups` argument survived —
the step-3 position lookup succeeds for every bucket's group name, and
the whole sort step succeeds: the failure branch of the lookup is
unreachable. -/
theorem claim_C6_position_lookup_total (groups : List String)
    (commits retained : List Commit) (pairs : List (String × List Commit))
    (hret : retainCommits groups commits = .ok retained)
    (hpairs : groupPairsE retained [] = .ok pairs) :
    (∀ p ∈ pairs, ∃ i, posE groups p.1 = .ok i) ∧
      ∃ sorted, sortPairsE groups pairs = .ok sorted := by
  obtain ⟨hall, hgo⟩ := groupPairsE_ok_sound retained [] pairs hpairs
  have hkey : ∀ p ∈ pairs, groups.any (fun g => g == p.1) = true := by
    intro p hp
    have hk : p.1 ∈ pairs.map Prod.fst := List.mem_map_of_mem Prod.fst hp
    rw [hgo] at hk
    obtain ⟨c, hc, hck⟩ := by simpa using mem_keys_groupGo retained [] p.1 |>.mp hk
    obtain ⟨cg, hcg, hcany⟩ := commitMatches_ok_true groups c
      (retain_sound groups commits retained hret c hc)
    rw [hcg, Option.getD_some] at hck
    exact hck ▸ hcany
  refine ⟨fun p hp => ?_, ?_⟩
  · exact ⟨posP groups p.1, posE_ok_of_any groups p.1 (hkey p hp)⟩
  · exact ⟨_, by rw [sortPairsE, attachPos_ok groups pairs hkey]⟩

/-- Witness for C6 at a concrete retained input. -/
theorem claim_C6_witness :
    (∀ p ∈ [("feat", [cFeatB])], ∃ i, posE ["feat"] p.1 = .ok i) ∧
      ∃ sorted, sortPairsE ["feat"] [("feat", [cFeatB])] = .ok sorted :=
  claim_C6_position_lookup_total ["feat"] [cFeatB] [cFeatB]
    [("feat", [cFeatB])] rfl rfl

/-- Counterexample to C3 as stated: invoking `commit_groups` with a
well-typed value but no `groups` named argument does not produce a
returned (typed) filter failure — it hits
`args.get("groups").expect(...)`, a panic that aborts the process
(`FilterErr.panic` is the model of that panic, disjoint by construction
from the returned `FilterErr.typeErr` and from any `.ok` result). -/
theorem claim_C3_counterexample :
    Template.commit_groups (.arr []) [] =
      .error (.panic "groups must be present in args") := rfl

/-- C3 as amended: whenever the invocation value deserializes as a
commit sequence and the named arguments carry no `groups` key, the
`commit_groups` filter panics (process abort) with the message
`groups must be present in args` instead of returning a typed render
failure. -/
theorem claim_C3_missing_groups_panics (v : Value)
    (args : List (String × Value)) (commits : List Commit)
    (hv : commitsOfValue v = some commits)
    (hargs : args.lookup "groups" = none) :
    Template.commit_groups v args =
      .error (.panic "groups must be present in args") := by
  simp [Template.commit_groups, hv, hargs]

/-- Witness for the amended C3 at a concrete input. -/
theorem claim_C3_witness :
    commitsOfValue (.arr []) = some [] ∧
    (List.lookup "groups" ([] : List (String × Value))) = none ∧
    Template.commit_groups (.arr []) [] =
      .error (.panic "groups must be present in args") :=
  ⟨rfl, rfl, claim_C3_missing_groups_panics (.arr []) [] [] rfl rfl⟩

/-- Counterexample to C4 as stated: a commit whose `group` field is
absent does not surface as a returned `TemplateRenderError` — the
filter hits `commit.group.as_deref().expect("commit must have group")`,
a panic that aborts the process instead of propagating a typed error
through the render path. -/
theorem claim_C4_counterexample :
    Template.commit_groups
        (.arr [.obj [("id", .str "1"), ("message", .str "m")]])
        [("groups", .arr [.str "feat"])] =
      .error (.panic "commit must have group") := rfl

/-- C4 as amended: whenever the deserialized commit sequence contains a
commit without a `group` and the `groups` argument is a non-empty
string sequence, the `commit_groups` filter panics (process abort) with
the message `commit must have group`; nothing is returned to the
renderer, so no `TemplateRenderError` is produced. -/
theorem claim_C4_missing_group_panics (v gv : Value)
    (args : List (String × Value)) (commits : List Commit)
    (groups : List String) (hv : commitsOfValue v = some commits)
    (hargs : args.lookup "groups" = some gv)
    (hg : stringsOfValue gv = some groups) (hgne : groups ≠ [])
    (hc : ∃ c ∈ commits, c.group = none) :
    Template.commit_groups v args =
      .error (.panic "commit must have group") := by
  simp [Template.commit_groups, hv, hargs, hg, commitGroupsCore,
    retain_panics groups hgne commits hc]

/-- Witness for the amended C4 at a concrete input. -/
theorem claim_C4_witness :
    commitsOfValue (.arr [.obj [("id", .str "1"), ("message", .str "m")]]) =
        some [⟨"1", "m", none⟩] ∧
    Template.commit_groups
        (.arr [.obj [("id", .str "1"), ("message", .str "m")]])
        [("groups", .arr [.str "feat"])] =
      .error (.panic "commit must have group") :=
  ⟨rfl, claim_C4_missing_group_panics
    (.arr [.obj [("id", .str "1"), ("message", .str "m")]])
    (.arr [.str "feat"]) [("groups", .arr [.str "feat"])]
    [⟨"1", "m", none⟩] ["feat"] rfl rfl rfl (by simp)
    ⟨⟨"1", "m", none⟩, by simp⟩⟩

/-- C7: for every string input, `upper_first_filter` accepts the value
and returns the transformed string; the transform maps the empty string
to the empty string, and on a non-empty string it replaces exactly the
first character (Unicode scalar) by its full uppercase expansion while
leaving the remaining characters untouched.  The transform is a total
Lean function of the input, hence deterministic and side-effect
free. -/
theorem claim_C7_upper_first (upc : Char → List Char) (s : String)
    (args : List (String × Value)) :
    Template.upper_first_filter upc (.str s) args =
      .ok (.str (upperFirst upc s)) ∧
    upperFirst upc "" = "" ∧
    ∀ f rest, s.data = f :: rest →
      (upperFirst upc s).data = upc f ++ rest := by
  refine ⟨rfl, rfl, fun f rest hd => ?_⟩
  simp [upperFirst, hd]

/-- Witness for C7: the head of `"abc"` is uppercased and the tail kept
(and `upcTest` would expand a sharp s to two characters, exercising the
multi-character branch of the mapping). -/
theorem claim_C7_witness :
    "abc".data = 'a' :: ['b', 'c'] ∧
    (upperFirst upcTest "abc").data = upcTest 'a' ++ ['b', 'c'] :=
  ⟨rfl, (claim_C7_upper_first upcTest "abc" []).2.2 'a' ['b', 'c'] rfl⟩

/-- C8: each filter validates its primary value before any logic runs:
`upper_first_filter` returns a value-type error on every non-string
value, and `commit_groups` returns a value-type error on every value
that does not deserialize into a sequence of commits — even when the
`groups` argument is also absent, i.e. the value check precedes the
argument lookup. -/
theorem claim_C8_value_validation (upc : Char → List Char) (v₁ v₂ : Value)
    (args₁ args₂ : List (String × Value)) (h₁ : ∀ s, v₁ ≠ .str s)
    (h₂ : commitsOfValue v₂ = none) :
    Template.upper_first_filter upc v₁ args₁ =
      .error (.typeErr "upper_first_filter" "value") ∧
    Template.commit_groups v₂ args₂ =
      .error (.typeErr "commit_groups" "value") := by
  constructor
  · cases v₁ with
    | str s => exact absurd rfl (h₁ s)
    | null => rfl
    | bool b => rfl
    | num n => rfl
    | arr vs => rfl
    | obj fs => rfl
  · simp [Template.commit_groups, h₂]

/-- Witness for C8: a number is neither a string nor a commit
sequence; both filters reject it, the second with no `groups` argument
supplied. -/
theorem claim_C8_witness :
    commitsOfValue (.num 3) = none ∧
    Template.upper_first_filter upcTest (.num 3) [] =
      .error (.typeErr "upper_first_filter" "value") ∧
    Template.commit_groups (.num 3) [] =
      .error (.typeErr "commit_groups" "value") :=
  ⟨rfl, claim_C8_value_validation upcTest (.num 3) (.num 3) [] []
    (fun _ h => Value.noConfusion h) rfl⟩

/-- Counterexample to C5 as stated: on an engine error whose cause
chain is two levels deep, the code returns the display text of the
immediate cause (`mid`), not the cause chain's deepest message
(`deep`). -/
theorem claim_C5_counterexample :
    Template.new (.error (.node "top" (.node "mid" (.leaf "deep")))) ≠
      .error (.TemplateParseError
        (EngineError.deepestMessage
          (.node "top" (.node "mid" (.leaf "deep"))))) := by
  simp [Template.new, EngineError.source, EngineError.display,
    EngineError.deepestMessage]

/-- C5 as amended: on an engine failure in `new`, `render` or
`render_with_groups`, if the engine error carries a directly attached
cause, the result is the operation-specific error kind
(`TemplateParseError` for construction, `TemplateRenderError` for both
render operations) carrying the display text of that immediate cause —
which coincides with the cause chain's deepest message only when the
chain is at most one cause deep; if no cause is attached, the result is
the opaque `TemplateError` wrapping the engine's own error. -/
theorem claim_C5_error_translation (m₁ m₂ : String) (s : EngineError)
    (release : Release) (groups : List String)
    (evalN evalL : Context → Except EngineError String)
    (hN : ∀ ctx, evalN ctx = .error (.node m₁ s))
    (hL : ∀ ctx, evalL ctx = .error (.leaf m₂)) :
    Template.new (.error (.node m₁ s)) =
      .error (.TemplateParseError s.display) ∧
    Template.new (.error (.leaf m₂)) = .error (.TemplateError (.leaf m₂)) ∧
    Template.render evalN release =
      .error (.TemplateRenderError s.display) ∧
    Template.render evalL release = .error (.TemplateError (.leaf m₂)) ∧
    Template.render_with_groups evalN release groups =
      .error (.TemplateRenderError s.display) ∧
    Template.render_with_groups evalL release groups =
      .error (.TemplateError (.leaf m₂)) := by
  refine ⟨rfl, rfl, ?_, ?_, ?_, ?_⟩ <;>
    simp [Template.render, Template.render_with_groups, hN, hL,
      EngineError.source, EngineError.display]

/-- Witness for the amended C5 on concrete engine errors: a chain
`top -> deep` surfaces `deep`, and a causeless `plain` is wrapped
opaquely, across all three operations. -/
theorem claim_C5_witness :
    Template.new (.error (.node "top" (.leaf "deep"))) =
      .error (.TemplateParseError "deep") ∧
    Template.new (.error (.leaf "plain")) =
      .error (.TemplateError (.leaf "plain")) ∧
    Template.render evalErrChain releaseEmpty =
      .error (.TemplateRenderError "deep") ∧
    Template.render evalErrLeaf releaseEmpty =
      .error (.TemplateError (.leaf "plain")) ∧
    Template.render_with_groups evalErrChain releaseEmpty ["feat"] =
      .error (.TemplateRenderError "deep") ∧
    Template.render_with_groups evalErrLeaf releaseEmpty ["feat"] =
      .error (.TemplateError (.leaf "plain")) := by
  have h := claim_C5_error_translation "top" "plain" (.leaf "deep")
    releaseEmpty ["feat"] evalErrChain evalErrLeaf (fun _ => rfl)
    (fun _ => rfl)
  exact ⟨h.1, h.2.1, h.2.2.1, h.2.2.2.1, h.2.2.2.2.1, h.2.2.2.2.2⟩

/-- C9: `render_with_groups` behaves exactly like `render` except that
its evaluation context additionally binds the groups sequence under the
fixed key `commit_groups_filter` (second conjunct, unconditionally);
in particular, for every evaluation function that does not depend on
that key, `render_with_groups` returns the same result as `render`
(first conjunct). -/
theorem claim_C9_render_with_groups
    (eval : Context → Except EngineError String) (release : Release)
    (groups : List String)
    (h : ∀ ctx v, eval (contextInsert ctx "commit_groups_filter" v) =
      eval ctx) :
    Template.render_with_groups eval release groups =
      Template.render eval release ∧
    Template.render_with_groups eval release groups =
      Template.render
        (fun ctx => eval (contextInsert ctx "commit_groups_filter"
          (.arr (groups.map .str)))) release := by
  constructor
  · simp only [Template.render_with_groups, Template.render, h]
  · rfl

/-- Witness for C9 with a context-independent evaluation function. -/
theorem claim_C9_witness :
    Template.render_with_groups (evalConst "out") releaseEmpty ["feat"] =
      Template.render (evalConst "out") releaseEmpty ∧
    Template.render_with_groups (evalConst "out") releaseEmpty ["feat"] =
      Template.render
        (fun ctx => evalConst "out" (contextInsert ctx
          "commit_groups_filter" (.arr (["feat"].map .str))))
        releaseEmpty :=
  claim_C9_render_with_groups (evalConst "out") releaseEmpty ["feat"]
    (fun _ _ => rfl)

end GitCliff
